import Mathlib

/-!
Verification of the `megophone` Double-Metaphone scanning engine
(`metaphone.go`).  Go strings are byte sequences and every operation in the
source (indexing `p.t[p.cur]`, slicing `p.t[a:b]`, the `switch` on a byte)
works on bytes, so the embedding models text as `List Nat` of byte values
and Go string literals through an explicit UTF-8 encoder.  Go slicing
panics when an index is out of range; panicking operations are modelled in
the `Option` monad, so `none` means the Go program would abort.
-/

namespace Megophone

/-- UTF-8 encoding of one Unicode code point as a list of byte values. -/
def utf8Bytes (cp : Nat) : List Nat :=
  if cp < 128 then [cp]
  else if cp < 2048 then [192 + cp / 64, 128 + cp % 64]
  else if cp < 65536 then [224 + cp / 4096, 128 + (cp / 64) % 64, 128 + cp % 64]
  else [240 + cp / 262144, 128 + (cp / 4096) % 64, 128 + (cp / 64) % 64, 128 + cp % 64]

/-- The byte sequence of a string, as Go stores it (UTF-8). -/
def bytes (s : String) : List Nat :=
  (s.data.map (fun ch => utf8Bytes ch.toNat)).flatten

/-- Go struct `phoneticData` (metaphone.go lines 46-52): padded text `t`,
cursor `cur`, the never-used `isSlavoGermanic` flag, and the two code
accumulators. -/
structure phoneticData where
  t : List Nat
  cur : Nat
  isSlavoGermanic : Bool
  metaphone1 : List Nat
  metaphone2 : List Nat
  deriving DecidableEq, Repr

/-- Go slice expression `t[a:b]`: defined when `0 ≤ a ≤ b ≤ len t`,
a panic (`none`) otherwise. -/
def goSlice (t : List Nat) (a b : Int) : Option (List Nat) :=
  if 0 ≤ a ∧ a ≤ b ∧ b ≤ (t.length : Int) then
    some ((t.drop a.toNat).take (b - a).toNat)
  else
    none

/-- The candidate loop of `matchesAny` (metaphone.go lines 63-68): slice the
text at `cur+pos` with each candidate's length and compare; first match wins. -/
def matchesLoop (t : List Nat) (cur : Nat) (pos : Int) : List (List Nat) → Option Bool
  | [] => some false
  | m :: rest =>
    (goSlice t ((cur : Int) + pos) ((cur : Int) + (m.length : Int) + pos)).bind
      (fun sub => if sub = m then some true else matchesLoop t cur pos rest)

/-- Go `(p *phoneticData) matchesAny(pos, matches...)` (lines 54-71):
true with no candidates, false when the absolute position is negative,
otherwise the candidate loop. -/
def matchesAny (p : phoneticData) (pos : Int) (ms : List (List Nat)) : Option Bool :=
  if ms = [] then some true
  else if (p.cur : Int) + pos < 0 then some false
  else matchesLoop p.t p.cur pos ms

/-- Go `(p *phoneticData) add(phoneme...)` (lines 73-82). -/
def add (p : phoneticData) (phoneme : List (List Nat)) : phoneticData :=
  match phoneme with
  | [] => p
  | [a] => { p with metaphone1 := p.metaphone1 ++ a, metaphone2 := p.metaphone2 ++ a }
  | a :: b :: _ => { p with metaphone1 := p.metaphone1 ++ a, metaphone2 := p.metaphone2 ++ b }

/-- Go `(p *phoneticData) skip(skipBy)` (lines 84-86); every call site passes
a positive literal. -/
def skip (p : phoneticData) (skipBy : Nat) : phoneticData :=
  { p with cur := p.cur + skipBy }

/-- Go `(p *phoneticData) isVowel(pos)` (lines 88-90). -/
def isVowel (p : phoneticData) (pos : Int) : Option Bool :=
  matchesAny p pos [bytes "a", bytes "e", bytes "i", bytes "o", bytes "u", bytes "y"]

/-- Go `(p *phoneticData) b()` (lines 92-98): emit "p", then skip a doubled
"b".  The read of `p.t[p.cur+1]` is a Go index expression, a panic when out
of range; `add` leaves `t` and `cur` unchanged, so testing the index first
is the same program. -/
def b (p : phoneticData) : Option phoneticData :=
  match p.t.get? (p.cur + 1) with
  | none => none
  | some ch => some (if ch = 98 then skip (add p [bytes "p"]) 1 else add p [bytes "p"])

/-- Go `(p *phoneticData) ç()` (lines 100-102): emit "s", no skip. -/
def cCedilla (p : phoneticData) : phoneticData :=
  add p [bytes "s"]

/-- Short-circuit `&&` over fallible Booleans: the right operand's effect
only happens when the left is true, as in Go. -/
def mand (x y : Option Bool) : Option Bool :=
  x.bind (fun v => if v then y else some false)

/-- Short-circuit `||` over fallible Booleans. -/
def mor (x y : Option Bool) : Option Bool :=
  x.bind (fun v => if v then some true else y)

/-- `!` over fallible Booleans. -/
def mnot (x : Option Bool) : Option Bool :=
  x.bind (fun v => some (!v))

/-- Guard of rule 1 of the `c` handler (metaphone.go lines 106-107). -/
def cGuard1 (p : phoneticData) : Option Bool :=
  mand (some (decide (p.cur > 1)))
    (mand (mnot (isVowel p (-2)))
      (mand (matchesAny p (-1) [bytes "ach"])
        (mand (mnot (matchesAny p 2 [bytes "i"]))
          (mor (mnot (matchesAny p 2 [bytes "e"]))
            (matchesAny p (-2) [bytes "acher"])))))

/-- Guard of rule 2, the "caesar" special case (line 111). -/
def cGuard2 (p : phoneticData) : Option Bool :=
  mand (some (decide (p.cur = 0))) (matchesAny p 0 [bytes "caesar"])

/-- Guard of rule 3, italian "chianti" (line 115). -/
def cGuard3 (p : phoneticData) : Option Bool :=
  matchesAny p 0 [bytes "chia"]

/-- Guard of rule 4, "ch" (line 119). -/
def cGuard4 (p : phoneticData) : Option Bool :=
  matchesAny p 0 [bytes "ch"]

/-- Guard of rule 5, "cz" but not "wicz" (line 147). -/
def cGuard5 (p : phoneticData) : Option Bool :=
  mand (matchesAny p 0 [bytes "cz"]) (mnot (matchesAny p (-2) [bytes "wicz"]))

/-- Guard of rule 6, "-cia-" (line 151). -/
def cGuard6 (p : phoneticData) : Option Bool :=
  matchesAny p 1 [bytes "cia"]

/-- Guard of sub-rule 4a, "michael" (line 121). -/
def chGuardA (p : phoneticData) : Option Bool :=
  mand (some (decide (p.cur > 0))) (matchesAny p 0 [bytes "chae"])

/-- Guard of sub-rule 4b, greek roots (lines 124-125). -/
def chGuardB (p : phoneticData) : Option Bool :=
  mand (some (decide (p.cur = 0)))
    (mand (mnot (matchesAny p 0 [bytes "chore"]))
      (matchesAny p 1
        [bytes "harac", bytes "haris", bytes "hor", bytes "hym", bytes "hia", bytes "hem"]))

/-- Guard of sub-rule 4c, germanic/greek "ch" for a "kh" sound
(lines 128-131). -/
def chGuardC (p : phoneticData) : Option Bool :=
  mor (matchesAny p (-(p.cur : Int)) [bytes "van ", bytes "von ", bytes "sch"])
    (mor (matchesAny p (-2) [bytes "orches", bytes "archit", bytes "orchid"])
      (mor (matchesAny p 2 [bytes "t", bytes "s"])
        (mand
          (mor (matchesAny p (-1) [bytes "a", bytes "e", bytes "o", bytes "u"])
            (some (decide (p.cur = 0))))
          (matchesAny p 2
            [bytes "l", bytes "r", bytes "n", bytes "m", bytes "b", bytes "h",
             bytes "f", bytes "v", bytes "w", bytes " "]))))

/-- The inner decision list of rule 4 (metaphone.go lines 120-145), before
the common `skip(1)` of line 146. -/
def chInner (p : phoneticData) : Option phoneticData :=
  (chGuardA p).bind (fun gA =>
  if gA then some (add p [bytes "k"])
  else (chGuardB p).bind (fun gB =>
  if gB then some (add p [bytes "k"])
  else (chGuardC p).bind (fun gC =>
  if gC then some (add p [bytes "k"])
  else if p.cur > 0 then
    (matchesAny p (-(p.cur : Int)) [bytes "mc"]).bind (fun gMc =>
      if gMc then some (add p [bytes "k"]) else some (add p [bytes "x", bytes "k"]))
  else some (add p [bytes "x"]))))

/-- Go `(p *phoneticData) c()` (lines 104-156): an ordered `if`/`else if`
decision list; the first guard that evaluates to true wins. -/
def c (p : phoneticData) : Option phoneticData :=
  (cGuard1 p).bind (fun g1 =>
  if g1 then some (skip (add p [bytes "k"]) 1)
  else (cGuard2 p).bind (fun g2 =>
  if g2 then some (skip (add p [bytes "s"]) 1)
  else (cGuard3 p).bind (fun g3 =>
  if g3 then some (skip (add p [bytes "k"]) 1)
  else (cGuard4 p).bind (fun g4 =>
  if g4 then (chInner p).bind (fun q => some (skip q 1))
  else (cGuard5 p).bind (fun g5 =>
  if g5 then some (skip (add p [bytes "s", bytes "x"]) 1)
  else (cGuard6 p).bind (fun g6 =>
  if g6 then some (skip (add p [bytes "x"]) 2)
  else some p))))))

/-- One iteration body of the scan loop (metaphone.go lines 177-198): read
the byte at the cursor and dispatch on it; the Go `switch` compares the byte
with the rune constants of its cases, so `case 'ç'` compares with 231 (0xE7). -/
def dispatch (p : phoneticData) : Option phoneticData :=
  match p.t.get? p.cur with
  | none => none
  | some next =>
    if next = 97 ∨ next = 101 ∨ next = 105 ∨ next = 111 ∨ next = 117 ∨ next = 121 then
      some (if p.cur = 0 then add p [bytes "a"] else p)
    else if next = 98 then b p
    else if next = 231 then some (cCedilla p)
    else if next = 99 then c p
    else some p

/-- The scan loop (lines 176-201), fuelled: with fuel at least
`t.length - cur` the fuel never runs out because the cursor only grows. -/
def scanLoop : Nat → phoneticData → Option phoneticData
  | 0, p => if p.cur < p.t.length then none else some p
  | fuel + 1, p =>
    if p.cur < p.t.length then
      (dispatch p).bind (fun q => scanLoop fuel { q with cur := q.cur + 1 })
    else some p

/-- The initial state of `Metaphone` (lines 161-166): 5-space padding,
cursor 0, empty accumulators. -/
def initState (s : List Nat) : phoneticData :=
  { t := s ++ bytes "     ", cur := 0, isSlavoGermanic := false
    metaphone1 := [], metaphone2 := [] }

/-- The silent initial clusters of line 168. -/
def silentClusters : List (List Nat) :=
  [bytes "gn", bytes "kn", bytes "pn", bytes "wr", bytes "ps"]

/-- The "x" check of `Metaphone` (lines 172-174): it reads the text at the
current cursor position, which the cluster skip may already have moved. -/
def preScanX (p : phoneticData) : Option phoneticData :=
  (matchesAny p 0 [bytes "x"]).bind (fun mx =>
  some (if mx then add p [bytes "s"] else p))

/-- The pre-scan of `Metaphone` (lines 168-174): the silent-cluster skip,
then the "x" check at the post-skip cursor. -/
def preScan (p : phoneticData) : Option phoneticData :=
  (matchesAny p 0 silentClusters).bind (fun m =>
  preScanX (if m then skip p 2 else p))

/-- Go `Metaphone(s)` (lines 158-206), on the byte sequence of `s`; the
`fmt.Println` side effect is not part of the returned value. -/
def Metaphone (s : List Nat) : Option (List Nat × List Nat) :=
  (preScan (initState s)).bind (fun p =>
  (scanLoop p.t.length p).bind (fun q =>
  some (q.metaphone1, q.metaphone2)))

/-- The only bytes any handler ever emits: a, p, s, k, x. -/
def okByte (v : Nat) : Prop :=
  v = 97 ∨ v = 112 ∨ v = 115 ∨ v = 107 ∨ v = 120

instance (v : Nat) : Decidable (okByte v) := by
  unfold okByte
  infer_instance

/-- State evolution invariant: the text is unchanged, the cursor has not
decreased, and each accumulator has grown by the same number of emitted
bytes, all drawn from the handler alphabet. -/
def Extends (p q : phoneticData) : Prop :=
  q.t = p.t ∧ p.cur ≤ q.cur ∧
  ∃ d1 d2 : List Nat,
    q.metaphone1 = p.metaphone1 ++ d1 ∧ q.metaphone2 = p.metaphone2 ++ d2 ∧
    d1.length = d2.length ∧ (∀ v ∈ d1, okByte v) ∧ (∀ v ∈ d2, okByte v)

theorem extends_rfl (p : phoneticData) : Extends p p :=
  ⟨rfl, le_rfl, [], [], by simp, by simp, rfl, by simp, by simp⟩

theorem extends_trans (p q r : phoneticData) (h1 : Extends p q) (h2 : Extends q r) :
    Extends p r := by
  obtain ⟨ht1, hc1, d1, d2, hm1, hm2, hl, ha, hb⟩ := h1
  obtain ⟨ht2, hc2, e1, e2, hn1, hn2, hl', ha', hb'⟩ := h2
  refine ⟨ht2.trans ht1, hc1.trans hc2, d1 ++ e1, d2 ++ e2, ?_, ?_, ?_, ?_, ?_⟩
  · rw [hn1, hm1, List.append_assoc]
  · rw [hn2, hm2, List.append_assoc]
  · simp [hl, hl']
  · intro v hv
    rcases List.mem_append.mp hv with h | h
    · exact ha v h
    · exact ha' v h
  · intro v hv
    rcases List.mem_append.mp hv with h | h
    · exact hb v h
    · exact hb' v h

theorem extends_add1 (p : phoneticData) (d : List Nat) (h : ∀ v ∈ d, okByte v) :
    Extends p (add p [d]) :=
  ⟨rfl, le_rfl, d, d, rfl, rfl, rfl, h, h⟩

theorem extends_add2 (p : phoneticData) (d1 d2 : List Nat) (h1 : ∀ v ∈ d1, okByte v)
    (h2 : ∀ v ∈ d2, okByte v) (hl : d1.length = d2.length) :
    Extends p (add p [d1, d2]) :=
  ⟨rfl, le_rfl, d1, d2, rfl, rfl, hl, h1, h2⟩

theorem extends_skip (p q : phoneticData) (n : Nat) (h : Extends p q) :
    Extends p (skip q n) :=
  ⟨h.1, h.2.1.trans (Nat.le_add_right _ _), h.2.2⟩

theorem b_extends (p q : phoneticData) (h : b p = some q) : Extends p q := by
  unfold b at h
  split at h
  · cases h
  · rw [Option.some_inj] at h
    subst h
    split
    · exact extends_skip _ _ _ (extends_add1 _ _ (by decide))
    · exact extends_add1 _ _ (by decide)

theorem chInner_extends (p q : phoneticData) (h : chInner p = some q) : Extends p q := by
  unfold chInner at h
  rw [Option.bind_eq_some] at h
  obtain ⟨gA, _, h⟩ := h
  split at h
  · rw [Option.some_inj] at h; subst h; exact extends_add1 _ _ (by decide)
  · rw [Option.bind_eq_some] at h
    obtain ⟨gB, _, h⟩ := h
    split at h
    · rw [Option.some_inj] at h; subst h; exact extends_add1 _ _ (by decide)
    · rw [Option.bind_eq_some] at h
      obtain ⟨gC, _, h⟩ := h
      split at h
      · rw [Option.some_inj] at h; subst h; exact extends_add1 _ _ (by decide)
      · split at h
        · rw [Option.bind_eq_some] at h
          obtain ⟨gMc, _, h⟩ := h
          split at h
          · rw [Option.some_inj] at h; subst h; exact extends_add1 _ _ (by decide)
          · rw [Option.some_inj] at h; subst h
            exact extends_add2 _ _ _ (by decide) (by decide) rfl
        · rw [Option.some_inj] at h; subst h; exact extends_add1 _ _ (by decide)

theorem c_extends (p q : phoneticData) (h : c p = some q) : Extends p q := by
  unfold c at h
  rw [Option.bind_eq_some] at h
  obtain ⟨g1, _, h⟩ := h
  split at h
  · rw [Option.some_inj] at h; subst h
    exact extends_skip _ _ _ (extends_add1 _ _ (by decide))
  · rw [Option.bind_eq_some] at h
    obtain ⟨g2, _, h⟩ := h
    split at h
    · rw [Option.some_inj] at h; subst h
      exact extends_skip _ _ _ (extends_add1 _ _ (by decide))
    · rw [Option.bind_eq_some] at h
      obtain ⟨g3, _, h⟩ := h
      split at h
      · rw [Option.some_inj] at h; subst h
        exact extends_skip _ _ _ (extends_add1 _ _ (by decide))
      · rw [Option.bind_eq_some] at h
        obtain ⟨g4, _, h⟩ := h
        split at h
        · rw [Option.bind_eq_some] at h
          obtain ⟨q', hq', h⟩ := h
          rw [Option.some_inj] at h; subst h
          exact extends_skip _ _ _ (chInner_extends _ _ hq')
        · rw [Option.bind_eq_some] at h
          obtain ⟨g5, _, h⟩ := h
          split at h
          · rw [Option.some_inj] at h; subst h
            exact extends_skip _ _ _ (extends_add2 _ _ _ (by decide) (by decide) rfl)
          · rw [Option.bind_eq_some] at h
            obtain ⟨g6, _, h⟩ := h
            split at h
            · rw [Option.some_inj] at h; subst h
              exact extends_skip _ _ _ (extends_add1 _ _ (by decide))
            · rw [Option.some_inj] at h; subst h; exact extends_rfl p

theorem dispatch_extends (p q : phoneticData) (h : dispatch p = some q) : Extends p q := by
  unfold dispatch at h
  split at h
  · cases h
  · split at h
    · rw [Option.some_inj] at h; subst h
      split
      · exact extends_add1 _ _ (by decide)
      · exact extends_rfl p
    · split at h
      · exact b_extends _ _ h
      · split at h
        · rw [Option.some_inj] at h; subst h
          exact extends_add1 _ _ (by decide)
        · split at h
          · exact c_extends _ _ h
          · rw [Option.some_inj] at h; subst h; exact extends_rfl p

theorem preScanX_extends (p q : phoneticData) (h : preScanX p = some q) : Extends p q := by
  unfold preScanX at h
  rw [Option.bind_eq_some] at h
  obtain ⟨mx, _, h⟩ := h
  rw [Option.some_inj] at h
  subst h
  split
  · exact extends_add1 _ _ (by decide)
  · exact extends_rfl p

theorem preScan_extends (p q : phoneticData) (h : preScan p = some q) : Extends p q := by
  unfold preScan at h
  rw [Option.bind_eq_some] at h
  obtain ⟨m, _, h⟩ := h
  refine extends_trans _ _ _ ?_ (preScanX_extends _ _ h)
  split
  · exact extends_skip _ _ _ (extends_rfl p)
  · exact extends_rfl p

theorem scanLoop_extends (fuel : Nat) :
    ∀ p q : phoneticData, scanLoop fuel p = some q → Extends p q := by
  induction fuel with
  | zero =>
    intro p q h
    unfold scanLoop at h
    split at h
    · cases h
    · rw [Option.some_inj] at h; subst h; exact extends_rfl p
  | succ n ih =>
    intro p q h
    unfold scanLoop at h
    split at h
    · rw [Option.bind_eq_some] at h
      obtain ⟨r, hr, h⟩ := h
      refine extends_trans _ _ _ ?_ (ih _ _ h)
      exact extends_skip _ _ 1 (dispatch_extends _ _ hr)
    · rw [Option.some_inj] at h; subst h; exact extends_rfl p

theorem goSlice_some (t : List Nat) (a bb : Int) (h0 : 0 ≤ a) (hab : a ≤ bb)
    (hb : bb ≤ (t.length : Int)) :
    goSlice t a bb = some ((t.drop a.toNat).take (bb - a).toNat) := by
  unfold goSlice
  rw [if_pos ⟨h0, hab, hb⟩]

theorem matchesLoop_isSome (t : List Nat) (cur : Nat) (pos : Int) (L : Int)
    (ms : List (List Nat)) (h0 : 0 ≤ (cur : Int) + pos)
    (hL : ∀ m ∈ ms, (m.length : Int) ≤ L)
    (H : (cur : Int) + pos + L ≤ (t.length : Int)) :
    (matchesLoop t cur pos ms).isSome := by
  induction ms with
  | nil => simp [matchesLoop]
  | cons m rest ih =>
    have hm : (m.length : Int) ≤ L := hL m (List.mem_cons_self _ _)
    rw [matchesLoop,
      goSlice_some t _ _ h0 (by omega) (by omega), Option.some_bind]
    split
    · simp
    · exact ih (fun x hx => hL x (List.mem_cons_of_mem _ hx))

theorem matchesAny_isSome (p : phoneticData) (pos : Int) (ms : List (List Nat)) (L : Int)
    (hL : ∀ m ∈ ms, (m.length : Int) ≤ L)
    (H : (p.cur : Int) + pos + L ≤ (p.t.length : Int)) :
    (matchesAny p pos ms).isSome := by
  unfold matchesAny
  split
  · simp
  · split
    · simp
    · rename_i hneg
      exact matchesLoop_isSome _ _ _ L ms (by omega) hL H

theorem mand_isSome (x y : Option Bool) (hx : x.isSome) (hy : y.isSome) :
    (mand x y).isSome := by
  obtain ⟨v, hv⟩ := Option.isSome_iff_exists.mp hx
  rw [mand, hv, Option.some_bind]
  split
  · exact hy
  · simp

theorem mor_isSome (x y : Option Bool) (hx : x.isSome) (hy : y.isSome) :
    (mor x y).isSome := by
  obtain ⟨v, hv⟩ := Option.isSome_iff_exists.mp hx
  rw [mor, hv, Option.some_bind]
  split
  · simp
  · exact hy

theorem mnot_isSome (x : Option Bool) (hx : x.isSome) : (mnot x).isSome := by
  obtain ⟨v, hv⟩ := Option.isSome_iff_exists.mp hx
  rw [mnot, hv, Option.some_bind]
  simp

theorem isVowel_isSome (p : phoneticData) (pos : Int) (h0 : (p.cur : Int) + pos + 1 ≤ (p.t.length : Int)) :
    (isVowel p pos).isSome := by
  unfold isVowel
  exact matchesAny_isSome p pos _ 1 (by decide) h0

theorem cGuard1_isSome (p : phoneticData) (h : p.cur + 6 ≤ p.t.length) :
    (cGuard1 p).isSome := by
  unfold cGuard1
  refine mand_isSome _ _ (by simp) (mand_isSome _ _ (mnot_isSome _ ?_)
    (mand_isSome _ _ ?_ (mand_isSome _ _ (mnot_isSome _ ?_)
      (mor_isSome _ _ (mnot_isSome _ ?_) ?_))))
  · exact isVowel_isSome p (-2) (by omega)
  · exact matchesAny_isSome p (-1) _ 3 (by decide) (by omega)
  · exact matchesAny_isSome p 2 _ 1 (by decide) (by omega)
  · exact matchesAny_isSome p 2 _ 1 (by decide) (by omega)
  · exact matchesAny_isSome p (-2) _ 5 (by decide) (by omega)

theorem cGuard2_isSome (p : phoneticData) (h : p.cur + 6 ≤ p.t.length) :
    (cGuard2 p).isSome := by
  unfold cGuard2
  exact mand_isSome _ _ (by simp) (matchesAny_isSome p 0 _ 6 (by decide) (by omega))

theorem cGuard3_isSome (p : phoneticData) (h : p.cur + 6 ≤ p.t.length) :
    (cGuard3 p).isSome := by
  unfold cGuard3
  exact matchesAny_isSome p 0 _ 4 (by decide) (by omega)

theorem cGuard4_isSome (p : phoneticData) (h : p.cur + 6 ≤ p.t.length) :
    (cGuard4 p).isSome := by
  unfold cGuard4
  exact matchesAny_isSome p 0 _ 2 (by decide) (by omega)

theorem cGuard5_isSome (p : phoneticData) (h : p.cur + 6 ≤ p.t.length) :
    (cGuard5 p).isSome := by
  unfold cGuard5
  exact mand_isSome _ _ (matchesAny_isSome p 0 _ 2 (by decide) (by omega))
    (mnot_isSome _ (matchesAny_isSome p (-2) _ 4 (by decide) (by omega)))

theorem cGuard6_isSome (p : phoneticData) (h : p.cur + 6 ≤ p.t.length) :
    (cGuard6 p).isSome := by
  unfold cGuard6
  exact matchesAny_isSome p 1 _ 3 (by decide) (by omega)

theorem chGuardA_isSome (p : phoneticData) (h : p.cur + 6 ≤ p.t.length) :
    (chGuardA p).isSome := by
  unfold chGuardA
  exact mand_isSome _ _ (by simp) (matchesAny_isSome p 0 _ 4 (by decide) (by omega))

theorem chGuardB_isSome (p : phoneticData) (h : p.cur + 6 ≤ p.t.length) :
    (chGuardB p).isSome := by
  unfold chGuardB
  refine mand_isSome _ _ (by simp) (mand_isSome _ _ (mnot_isSome _ ?_) ?_)
  · exact matchesAny_isSome p 0 _ 5 (by decide) (by omega)
  · exact matchesAny_isSome p 1 _ 5 (by decide) (by omega)

theorem chGuardC_isSome (p : phoneticData) (h : p.cur + 6 ≤ p.t.length) :
    (chGuardC p).isSome := by
  unfold chGuardC
  refine mor_isSome _ _ ?_ (mor_isSome _ _ ?_ (mor_isSome _ _ ?_
    (mand_isSome _ _ (mor_isSome _ _ ?_ (by simp)) ?_)))
  · exact matchesAny_isSome p (-(p.cur : Int)) _ 4 (by decide) (by omega)
  · exact matchesAny_isSome p (-2) _ 6 (by decide) (by omega)
  · exact matchesAny_isSome p 2 _ 1 (by decide) (by omega)
  · exact matchesAny_isSome p (-1) _ 1 (by decide) (by omega)
  · exact matchesAny_isSome p 2 _ 1 (by decide) (by omega)

theorem chInner_isSome (p : phoneticData) (h : p.cur + 6 ≤ p.t.length) :
    (chInner p).isSome := by
  unfold chInner
  obtain ⟨gA, hA⟩ := Option.isSome_iff_exists.mp (chGuardA_isSome p h)
  rw [hA, Option.some_bind]
  split
  · simp
  · obtain ⟨gB, hB⟩ := Option.isSome_iff_exists.mp (chGuardB_isSome p h)
    rw [hB, Option.some_bind]
    split
    · simp
    · obtain ⟨gC, hC⟩ := Option.isSome_iff_exists.mp (chGuardC_isSome p h)
      rw [hC, Option.some_bind]
      split
      · simp
      · split
        · obtain ⟨gM, hM⟩ := Option.isSome_iff_exists.mp
            (matchesAny_isSome p (-(p.cur : Int)) [bytes "mc"] 2 (by decide) (by omega))
          rw [hM, Option.some_bind]
          split <;> simp
        · simp

theorem c_isSome (p : phoneticData) (h : p.cur + 6 ≤ p.t.length) :
    (c p).isSome := by
  unfold c
  obtain ⟨g1, h1⟩ := Option.isSome_iff_exists.mp (cGuard1_isSome p h)
  rw [h1, Option.some_bind]
  split
  · simp
  · obtain ⟨g2, h2⟩ := Option.isSome_iff_exists.mp (cGuard2_isSome p h)
    rw [h2, Option.some_bind]
    split
    · simp
    · obtain ⟨g3, h3⟩ := Option.isSome_iff_exists.mp (cGuard3_isSome p h)
      rw [h3, Option.some_bind]
      split
      · simp
      · obtain ⟨g4, h4⟩ := Option.isSome_iff_exists.mp (cGuard4_isSome p h)
        rw [h4, Option.some_bind]
        split
        · obtain ⟨q', hq'⟩ := Option.isSome_iff_exists.mp (chInner_isSome p h)
          rw [hq', Option.some_bind]
          simp
        · obtain ⟨g5, h5⟩ := Option.isSome_iff_exists.mp (cGuard5_isSome p h)
          rw [h5, Option.some_bind]
          split
          · simp
          · obtain ⟨g6, h6⟩ := Option.isSome_iff_exists.mp (cGuard6_isSome p h)
            rw [h6, Option.some_bind]
            split <;> simp

/-- A non-space byte read from the padded text lies in the real input part. -/
theorem padded_nonspace (s0 t : List Nat) (cur v : Nat) (ht : t = s0 ++ bytes "     ")
    (hv : t.get? cur = some v) (h32 : v ≠ 32) : cur < s0.length := by
  by_contra hge
  push_neg at hge
  rw [ht, List.get?_eq_getElem?, List.getElem?_append_right hge,
    ← List.get?_eq_getElem?] at hv
  have hmem := List.get?_mem hv
  have : v = 32 := by
    have hb : bytes "     " = [32, 32, 32, 32, 32] := rfl
    rw [hb] at hmem
    simpa using hmem
  exact h32 this

theorem padded_length (s0 t : List Nat) (ht : t = s0 ++ bytes "     ") :
    t.length = s0.length + 5 := by
  rw [ht, List.length_append]
  rfl

theorem dispatch_isSome (p : phoneticData) (s0 : List Nat)
    (ht : p.t = s0 ++ bytes "     ") (hc : p.cur < p.t.length) :
    (dispatch p).isSome := by
  unfold dispatch
  split
  · rename_i hnone
    rw [List.get?_eq_none] at hnone
    omega
  · rename_i next hnext
    split
    · simp
    · split
      · rename_i hb98
        have hlt : p.cur < s0.length := padded_nonspace s0 p.t p.cur next ht hnext (by omega)
        have hlen := padded_length s0 p.t ht
        unfold b
        split
        · rename_i hnone
          rw [List.get?_eq_none] at hnone
          omega
        · simp
      · split
        · simp
        · split
          · rename_i hv hb98 hcc hc99
            have hlt : p.cur < s0.length := padded_nonspace s0 p.t p.cur next ht hnext (by omega)
            have hlen := padded_length s0 p.t ht
            exact c_isSome p (by omega)
          · simp

theorem scanLoop_total (fuel : Nat) :
    ∀ p : phoneticData, ∀ s0 : List Nat, p.t = s0 ++ bytes "     " →
      p.t.length ≤ p.cur + fuel →
      ∃ q, scanLoop fuel p = some q ∧ Extends p q := by
  induction fuel with
  | zero =>
    intro p s0 ht hf
    refine ⟨p, ?_, extends_rfl p⟩
    unfold scanLoop
    rw [if_neg (by omega)]
  | succ n ih =>
    intro p s0 ht hf
    unfold scanLoop
    by_cases hc : p.cur < p.t.length
    · rw [if_pos hc]
      obtain ⟨r, hr⟩ := Option.isSome_iff_exists.mp (dispatch_isSome p s0 ht hc)
      have hre := dispatch_extends p r hr
      rw [hr, Option.some_bind]
      have ht' : ({ r with cur := r.cur + 1 } : phoneticData).t = s0 ++ bytes "     " := by
        show r.t = s0 ++ bytes "     "
        rw [hre.1, ht]
      obtain ⟨q, hq, hqe⟩ := ih { r with cur := r.cur + 1 } s0 ht' (by
        show r.t.length ≤ r.cur + 1 + n
        rw [hre.1]
        have := hre.2.1
        omega)
      refine ⟨q, hq, extends_trans _ _ _ ?_ hqe⟩
      exact extends_skip _ _ 1 (dispatch_extends _ _ hr)
    · rw [if_neg hc]
      exact ⟨p, rfl, extends_rfl p⟩

theorem preScan_isSome (p : phoneticData) (hc : p.cur = 0) (hl : 5 ≤ p.t.length) :
    (preScan p).isSome := by
  unfold preScan
  obtain ⟨m, hm⟩ := Option.isSome_iff_exists.mp
    (matchesAny_isSome p 0 silentClusters 2 (by decide) (by omega))
  rw [hm, Option.some_bind]
  unfold preScanX
  have hx : (matchesAny (if m then skip p 2 else p) 0 [bytes "x"]).isSome := by
    apply matchesAny_isSome _ 0 _ 1 (by decide)
    split
    · show ((skip p 2).cur : Int) + 0 + 1 ≤ ((skip p 2).t.length : Int)
      show ((p.cur + 2 : Nat) : Int) + 0 + 1 ≤ (p.t.length : Int)
      omega
    · omega
  obtain ⟨mx, hmx⟩ := Option.isSome_iff_exists.mp hx
  rw [hmx, Option.some_bind]
  simp

theorem Metaphone_isSome (s : List Nat) : ∃ pr sec, Metaphone s = some (pr, sec) := by
  unfold Metaphone
  have h5 : (initState s).t.length = s.length + 5 :=
    padded_length s (initState s).t rfl
  obtain ⟨p', hp'⟩ := Option.isSome_iff_exists.mp
    (preScan_isSome (initState s) rfl (by omega))
  rw [hp', Option.some_bind]
  have hpe := preScan_extends _ _ hp'
  obtain ⟨q, hq, hqe⟩ := scanLoop_total p'.t.length p' s (by rw [hpe.1]; rfl) (by omega)
  rw [hq, Option.some_bind]
  exact ⟨q.metaphone1, q.metaphone2, rfl⟩

theorem goSlice_subset (t : List Nat) (a bb : Int) (sub : List Nat)
    (h : goSlice t a bb = some sub) : sub ⊆ t := by
  unfold goSlice at h
  split at h
  · rw [Option.some_inj] at h
    subst h
    exact fun x hx => List.drop_subset _ _ (List.take_subset _ _ hx)
  · cases h

theorem matchesLoop_false (t : List Nat) (cur : Nat) (pos : Int) (ms : List (List Nat))
    (h0 : 0 ≤ (cur : Int) + pos)
    (H : ∀ m ∈ ms, (cur : Int) + m.length + pos ≤ (t.length : Int) ∧ ∃ x ∈ m, x ∉ t) :
    matchesLoop t cur pos ms = some false := by
  induction ms with
  | nil => rfl
  | cons m rest ih =>
    obtain ⟨hb, x, hxm, hxt⟩ := H m (List.mem_cons_self _ _)
    rw [matchesLoop, goSlice_some t _ _ h0 (by omega) hb, Option.some_bind, if_neg ?hne]
    case hne =>
      intro heq
      apply hxt
      apply goSlice_subset t _ _ _ (goSlice_some t _ _ h0 (by omega) hb)
      rw [heq]
      exact hxm
    exact ih (fun m' hm' => H m' (List.mem_cons_of_mem _ hm'))

theorem matchesAny_false (p : phoneticData) (pos : Int) (ms : List (List Nat))
    (hne : ms ≠ []) (h0 : 0 ≤ (p.cur : Int) + pos)
    (H : ∀ m ∈ ms, (p.cur : Int) + m.length + pos ≤ (p.t.length : Int) ∧ ∃ x ∈ m, x ∉ p.t) :
    matchesAny p pos ms = some false := by
  unfold matchesAny
  rw [if_neg hne, if_neg (by omega)]
  exact matchesLoop_false _ _ _ _ h0 H

theorem matchesLoop_true (t : List Nat) (cur : Nat) (pos : Int) (ms : List (List Nat))
    (h0 : 0 ≤ (cur : Int) + pos)
    (Hb : ∀ m ∈ ms, (cur : Int) + m.length + pos ≤ (t.length : Int))
    (Hx : ∃ m ∈ ms, (t.drop ((cur : Int) + pos).toNat).take m.length = m) :
    matchesLoop t cur pos ms = some true := by
  induction ms with
  | nil => simp at Hx
  | cons m rest ih =>
    have hb := Hb m (List.mem_cons_self _ _)
    have harg : (((cur : Int) + m.length + pos) - ((cur : Int) + pos)).toNat = m.length := by
      omega
    rw [matchesLoop, goSlice_some t _ _ h0 (by omega) hb, Option.some_bind, harg]
    by_cases heq : (t.drop ((cur : Int) + pos).toNat).take m.length = m
    · rw [if_pos heq]
    · rw [if_neg heq]
      apply ih (fun x hx => Hb x (List.mem_cons_of_mem _ hx))
      obtain ⟨m', hm', hsl⟩ := Hx
      rcases List.mem_cons.mp hm' with rfl | hm'
      · exact absurd hsl heq
      · exact ⟨m', hm', hsl⟩

theorem matchesAny_true (p : phoneticData) (pos : Int) (ms : List (List Nat))
    (hne : ms ≠ []) (h0 : 0 ≤ (p.cur : Int) + pos)
    (Hb : ∀ m ∈ ms, (p.cur : Int) + m.length + pos ≤ (p.t.length : Int))
    (Hx : ∃ m ∈ ms, (p.t.drop ((p.cur : Int) + pos).toNat).take m.length = m) :
    matchesAny p pos ms = some true := by
  unfold matchesAny
  rw [if_neg hne, if_neg (by omega)]
  exact matchesLoop_true _ _ _ _ h0 Hb Hx

/-- A byte with no `case` in the scan loop's `switch`. -/
def inert (v : Nat) : Prop :=
  ¬(v = 97 ∨ v = 101 ∨ v = 105 ∨ v = 111 ∨ v = 117 ∨ v = 121) ∧
    v ≠ 98 ∧ v ≠ 231 ∧ v ≠ 99

theorem dispatch_inert (p : phoneticData) (hI : ∀ v ∈ p.t, inert v)
    (hc : p.cur < p.t.length) : dispatch p = some p := by
  unfold dispatch
  split
  · rename_i hnone
    rw [List.get?_eq_none] at hnone
    omega
  · rename_i next hnext
    have hi := hI next (List.get?_mem hnext)
    rw [if_neg hi.1, if_neg hi.2.1, if_neg hi.2.2.1, if_neg hi.2.2.2]

theorem scanLoop_inert (fuel : Nat) :
    ∀ p : phoneticData, (∀ v ∈ p.t, inert v) → p.t.length ≤ p.cur + fuel →
      ∃ n, scanLoop fuel p = some { p with cur := n } := by
  induction fuel with
  | zero =>
    intro p hI hf
    refine ⟨p.cur, ?_⟩
    unfold scanLoop
    rw [if_neg (by omega)]
  | succ k ih =>
    intro p hI hf
    unfold scanLoop
    by_cases hc : p.cur < p.t.length
    · rw [if_pos hc, dispatch_inert p hI hc, Option.some_bind]
      obtain ⟨n, hn⟩ := ih { p with cur := p.cur + 1 } hI (by
        show p.t.length ≤ p.cur + 1 + k
        omega)
      exact ⟨n, hn⟩
    · rw [if_neg hc]
      exact ⟨p.cur, rfl⟩

theorem take_one_drop (t : List Nat) (cur v : Nat) :
    ((t.drop cur).take 1 = [v]) ↔ t.get? cur = some v := by
  have h : (t.drop cur).get? 0 = t.get? cur := by
    rw [List.get?_eq_getElem?, List.getElem?_drop, ← List.get?_eq_getElem?]
    norm_num
  rw [← h]
  cases hd : t.drop cur with
  | nil => simp
  | cons a as => simp

/-- What the single-candidate, offset-0 `matchesAny` call of the pre-scan
decides: whether the byte at the cursor equals the candidate byte. -/
theorem matchesAny_single (p : phoneticData) (v : Nat) (bb : Bool)
    (h : matchesAny p 0 [[v]] = some bb) :
    (bb = true ↔ p.t.get? p.cur = some v) := by
  unfold matchesAny at h
  rw [if_neg (by simp), if_neg (by omega)] at h
  rw [matchesLoop, Option.bind_eq_some] at h
  obtain ⟨sub, hsub, h⟩ := h
  unfold goSlice at hsub
  split at hsub
  · rw [Option.some_inj] at hsub
    subst hsub
    have ha : ((p.cur : Int) + 0).toNat = p.cur := by omega
    have hb : (((p.cur : Int) + (([v] : List Nat).length : Int) + 0) -
        ((p.cur : Int) + 0)).toNat = 1 := by
      simp
    rw [ha, hb] at h
    split at h
    · rename_i heq
      rw [Option.some_inj] at h
      subst h
      simp only [true_iff]
      exact (take_one_drop _ _ _).mp heq
    · rename_i hne
      rw [matchesLoop, Option.some_inj] at h
      subst h
      simp only [Bool.false_eq_true, false_iff]
      intro hget
      exact hne ((take_one_drop _ _ _).mpr hget)
  · cases hsub

/-- One iteration of the scan loop as a transition relation. -/
def StepR (p q : phoneticData) : Prop :=
  p.cur < p.t.length ∧ ∃ r, dispatch p = some r ∧ q = { r with cur := r.cur + 1 }

/-- All states the scan loop can pass through from a given state. -/
def Reach (p q : phoneticData) : Prop :=
  Relation.ReflTransGen StepR p q

theorem stepR_lt (p q : phoneticData) (h : StepR p q) : p.cur < q.cur := by
  obtain ⟨hc, r, hr, rfl⟩ := h
  have := (dispatch_extends p r hr).2.1
  show p.cur < r.cur + 1
  omega

theorem reach_le (p q : phoneticData) (h : Reach p q) : p.cur ≤ q.cur := by
  induction h with
  | refl => exact le_rfl
  | tail _ hbc ih => exact ih.trans (stepR_lt _ _ hbc).le

theorem stepR_det (p q r : phoneticData) (h1 : StepR p q) (h2 : StepR p r) : q = r := by
  obtain ⟨_, a, ha, rfl⟩ := h1
  obtain ⟨_, b2, hb2, rfl⟩ := h2
  rw [ha, Option.some_inj] at hb2
  subst hb2
  rfl

/-- C1: Totality — for every input byte string, including the empty one,
`Metaphone` returns a pair of strings; in the `Option` embedding, where
`none` is a Go slice/index panic, the result is always `some`: every
lookahead read by the matcher stays within the bounds of the 5-space-padded
text for the offsets and candidate lengths the handlers use. -/
theorem C1_metaphone_total (s : List Nat) : ∃ pr sec, Metaphone s = some (pr, sec) :=
  Metaphone_isSome s

/-- C2 counterexample: the input "gnx" does not start with 'x' (its first
byte is 103, 'g'), yet the pre-scan emits "s" to both codes, because the
"x" check of line 172 runs after the silent-cluster skip and therefore
reads the third character; the full encoding returns ("s","s") even though
no scan-loop handler fires for g, n or x. -/
theorem C2_counterexample :
    (bytes "gnx").get? 0 = some 103 ∧ (103 : Nat) ≠ 120 ∧
    preScan (initState (bytes "gnx")) =
      some { t := bytes "gnx" ++ bytes "     ", cur := 2, isSlavoGermanic := false,
             metaphone1 := [115], metaphone2 := [115] } ∧
    Metaphone (bytes "gnx") = some ([115], [115]) := by
  decide

/-- C2 (amended): the pre-scan emission of "s" to both codes occurs if and
only if the character at the cursor *after* the optional silent-cluster
skip is 'x' — the first character when no skip applies, the third when
the input begins with gn/kn/pn/wr/ps — and the emission itself does not
move the cursor (which is 0 or 2, set solely by the skip). -/
theorem C2_amended_prescan_x (s : List Nat) (p' : phoneticData)
    (h : preScan (initState s) = some p') :
    p'.t = (initState s).t ∧ (p'.cur = 0 ∨ p'.cur = 2) ∧
    p'.metaphone2 = p'.metaphone1 ∧
    (p'.t.get? p'.cur = some 120 → p'.metaphone1 = [115]) ∧
    (p'.t.get? p'.cur ≠ some 120 → p'.metaphone1 = []) := by
  unfold preScan at h
  rw [Option.bind_eq_some] at h
  obtain ⟨m, hm, h⟩ := h
  unfold preScanX at h
  rw [Option.bind_eq_some] at h
  obtain ⟨mx, hmx, h⟩ := h
  rw [Option.some_inj] at h
  subst h
  have hsingle := matchesAny_single _ 120 mx hmx
  cases m <;> cases mx
  · exact ⟨rfl, Or.inl rfl, rfl,
      fun hx => absurd (hsingle.mpr hx) (by simp),
      fun _ => rfl⟩
  · exact ⟨rfl, Or.inl rfl, rfl, fun _ => rfl,
      fun hne => absurd (hsingle.mp rfl) hne⟩
  · exact ⟨rfl, Or.inr rfl, rfl,
      fun hx => absurd (hsingle.mpr hx) (by simp),
      fun _ => rfl⟩
  · exact ⟨rfl, Or.inr rfl, rfl, fun _ => rfl,
      fun hne => absurd (hsingle.mp rfl) hne⟩

theorem C2_amended_witness :
    (⟨[120, 32, 32, 32, 32, 32], 0, false, [115], [115]⟩ : phoneticData).metaphone1
      = [115] :=
  (C2_amended_prescan_x (bytes "x")
      ⟨[120, 32, 32, 32, 32, 32], 0, false, [115], [115]⟩ (by decide)).2.2.2.1
    (by decide)

/-- C3: the spec (and the handler's own name) intend the input "ç" to
encode as ("s","s"), but the Go `switch` compares one byte of the UTF-8
text with the rune constant 'ç' = 231, and the UTF-8 encoding of 'ç' is
the byte pair 195,167 — so on the real input "ç" the handler never fires
and the code returns ("",""); only a text containing the raw (non-UTF-8)
byte 231 reaches the handler and produces "s". -/
theorem C3_cedilla_byte_bug :
    bytes "ç" = [195, 167] ∧
    Metaphone (bytes "ç") = some ([], []) ∧
    Metaphone [231] = some ([115], [115]) := by
  decide

/-- C4: the `c` handler is an ordered decision list — on "chia" at cursor 0
rules 1 and 2 fail, rule 3 ("chia") and rule 4 ("ch") both hold, and the
handler performs rule 3's action (emit k to both codes, extra skip 1)
because rule 3 is tested first; the whole encoding of "chia" is ("k","k"). -/
theorem C4_c_ordered_chia :
    cGuard1 (initState (bytes "chia")) = some false ∧
    cGuard2 (initState (bytes "chia")) = some false ∧
    cGuard3 (initState (bytes "chia")) = some true ∧
    cGuard4 (initState (bytes "chia")) = some true ∧
    c (initState (bytes "chia")) =
      some { initState (bytes "chia") with
             metaphone1 := [107], metaphone2 := [107], cur := 1 } ∧
    Metaphone (bytes "chia") = some ([107], [107]) := by
  decide

/-- C5: when the `c` handler runs and none of rules 1-4 match, the two
bytes at the cursor are "cz" and the four bytes from two before the cursor
are not "wicz", then "s" is appended to the primary code, "x" to the
secondary code, and the handler skips 1 extra position. -/
theorem C5_cz_rule (p : phoneticData)
    (h1 : cGuard1 p = some false) (h2 : cGuard2 p = some false)
    (h3 : cGuard3 p = some false) (h4 : cGuard4 p = some false)
    (hcz : matchesAny p 0 [bytes "cz"] = some true)
    (hwicz : matchesAny p (-2) [bytes "wicz"] = some false) :
    c p = some { p with metaphone1 := p.metaphone1 ++ [115],
                        metaphone2 := p.metaphone2 ++ [120], cur := p.cur + 1 } := by
  have h5 : cGuard5 p = some true := by
    unfold cGuard5 mand mnot
    rw [hcz, hwicz]
    rfl
  unfold c
  rw [h1, h2, h3, h4, h5]
  rfl

theorem C5_witness :
    c (initState (bytes "czerny")) =
      some { initState (bytes "czerny") with
             metaphone1 := (initState (bytes "czerny")).metaphone1 ++ [115],
             metaphone2 := (initState (bytes "czerny")).metaphone2 ++ [120],
             cur := (initState (bytes "czerny")).cur + 1 } :=
  C5_cz_rule (initState (bytes "czerny")) (by decide) (by decide) (by decide)
    (by decide) (by decide) (by decide)

/-- On a text whose bytes are all spaces or uppercase letters, neither
pre-scan check matches. -/
theorem preScan_noMatch (p : phoneticData) (hc : p.cur = 0) (hl : 5 ≤ p.t.length)
    (hno : ∀ x ∈ p.t, x = 32 ∨ (65 ≤ x ∧ x ≤ 90)) :
    preScan p = some p := by
  have hnotin : ∀ y : Nat, 96 < y → y ∉ p.t := by
    intro y hy hmem
    rcases hno y hmem with h | h <;> omega
  have h1 : matchesAny p 0 silentClusters = some false := by
    apply matchesAny_false _ _ _ (by decide) (by omega)
    intro m hm
    unfold silentClusters at hm
    fin_cases hm
    · exact ⟨by show (p.cur : Int) + ((2 : Nat) : Int) + 0 ≤ (p.t.length : Int); omega,
        103, by decide, hnotin 103 (by omega)⟩
    · exact ⟨by show (p.cur : Int) + ((2 : Nat) : Int) + 0 ≤ (p.t.length : Int); omega,
        107, by decide, hnotin 107 (by omega)⟩
    · exact ⟨by show (p.cur : Int) + ((2 : Nat) : Int) + 0 ≤ (p.t.length : Int); omega,
        112, by decide, hnotin 112 (by omega)⟩
    · exact ⟨by show (p.cur : Int) + ((2 : Nat) : Int) + 0 ≤ (p.t.length : Int); omega,
        119, by decide, hnotin 119 (by omega)⟩
    · exact ⟨by show (p.cur : Int) + ((2 : Nat) : Int) + 0 ≤ (p.t.length : Int); omega,
        112, by decide, hnotin 112 (by omega)⟩
  have h2 : matchesAny p 0 [bytes "x"] = some false := by
    apply matchesAny_false _ _ _ (by decide) (by omega)
    intro m hm
    rcases List.mem_singleton.mp hm with rfl
    exact ⟨by show (p.cur : Int) + ((1 : Nat) : Int) + 0 ≤ (p.t.length : Int); omega,
      120, by decide, hnotin 120 (by omega)⟩
  unfold preScan
  rw [h1, Option.some_bind]
  show preScanX p = some p
  unfold preScanX
  rw [h2, Option.some_bind]
  rfl

/-- C6: an input consisting only of uppercase letters A-Z encodes to the
empty pair, because neither pre-scan check nor any handler's literal
comparison matches an uppercase byte. -/
theorem C6_uppercase (s : List Nat) (hU : ∀ v ∈ s, 65 ≤ v ∧ v ≤ 90) :
    Metaphone s = some ([], []) := by
  have hno : ∀ x ∈ (initState s).t, x = 32 ∨ (65 ≤ x ∧ x ≤ 90) := by
    intro x hx
    rcases List.mem_append.mp hx with h | h
    · exact Or.inr (hU x h)
    · left
      have h' : x ∈ ([32, 32, 32, 32, 32] : List Nat) := h
      simpa using h'
  have hlen : (initState s).t.length = s.length + 5 := padded_length s _ rfl
  have hpre : preScan (initState s) = some (initState s) :=
    preScan_noMatch (initState s) rfl (by omega) hno
  have hinert : ∀ v ∈ (initState s).t, inert v := by
    intro v hv
    rcases hno v hv with h | h <;>
      exact ⟨by omega, by omega, by omega, by omega⟩
  obtain ⟨n, hn⟩ :=
    scanLoop_inert (initState s).t.length (initState s) hinert (by omega)
  unfold Metaphone
  rw [hpre, Option.some_bind, hn, Option.some_bind]
  rfl

theorem C6_witness : Metaphone (bytes "ABC") = some ([], []) :=
  C6_uppercase (bytes "ABC") (by decide)

/-- C7: a vowel byte at the cursor emits "a" to both codes exactly when the
cursor is 0 and emits nothing otherwise; and for an input beginning with
one of the silent clusters gn/kn/pn/wr/ps, scanning starts at cursor 2 and
the cursor never returns to 0, so the cursor-0 vowel emission never fires. -/
theorem C7_vowel_rule :
    (∀ p : phoneticData, ∀ v : Nat, p.t.get? p.cur = some v →
        (v = 97 ∨ v = 101 ∨ v = 105 ∨ v = 111 ∨ v = 117 ∨ v = 121) →
        dispatch p = some (if p.cur = 0 then add p [bytes "a"] else p)) ∧
    (∀ s pre rest : List Nat, ∀ p' : phoneticData, pre ∈ silentClusters →
        s = pre ++ rest → preScan (initState s) = some p' →
        p'.cur = 2 ∧ ∀ q, Reach p' q → q.cur ≠ 0) := by
  constructor
  · intro p v hget hv
    unfold dispatch
    split
    · rename_i hnone
      rw [hget] at hnone
      cases hnone
    · rename_i next hnext
      rw [hget, Option.some_inj] at hnext
      subst hnext
      rw [if_pos hv]
  · intro s pre rest p' hpre hs hscan
    subst hs
    have hlenpre : pre.length = 2 := by
      unfold silentClusters at hpre
      fin_cases hpre <;> rfl
    have hlen : (initState (pre ++ rest)).t.length = (pre ++ rest).length + 5 :=
      padded_length _ _ rfl
    have hs2 : 2 ≤ (pre ++ rest).length := by
      rw [List.length_append]
      omega
    have hc0 : (initState (pre ++ rest)).cur = 0 := rfl
    have hmatch : matchesAny (initState (pre ++ rest)) 0 silentClusters = some true := by
      apply matchesAny_true _ _ _ (by decide) (by omega)
      · intro m hm
        unfold silentClusters at hm
        fin_cases hm <;>
          (show ((initState (pre ++ rest)).cur : Int) + ((2 : Nat) : Int) + 0 ≤
            ((initState (pre ++ rest)).t.length : Int)) <;>
          omega
      · refine ⟨pre, hpre, ?_⟩
        show ((initState (pre ++ rest)).t.drop 0).take pre.length = pre
        rw [List.drop_zero]
        show ((pre ++ rest) ++ bytes "     ").take pre.length = pre
        rw [List.append_assoc]
        exact List.take_left pre _
    unfold preScan at hscan
    rw [hmatch, Option.some_bind, if_pos rfl] at hscan
    unfold preScanX at hscan
    rw [Option.bind_eq_some] at hscan
    obtain ⟨mx, hmx, hscan⟩ := hscan
    rw [Option.some_inj] at hscan
    subst hscan
    have hcur :
        (if mx then add (skip (initState (pre ++ rest)) 2) [bytes "s"]
         else skip (initState (pre ++ rest)) 2).cur = 2 := by
      cases mx <;> rfl
    refine ⟨hcur, fun q hq hq0 => ?_⟩
    have := reach_le _ _ hq
    omega

theorem C7_witness :
    dispatch (initState [97]) =
      some (if (initState [97]).cur = 0 then add (initState [97]) [bytes "a"]
            else initState [97]) ∧
    (⟨bytes "gna" ++ bytes "     ", 2, false, [], []⟩ : phoneticData).cur = 2 :=
  ⟨C7_vowel_rule.1 (initState [97]) 97 (by decide) (Or.inl rfl),
   (C7_vowel_rule.2 (bytes "gna") (bytes "gn") (bytes "a")
      ⟨bytes "gna" ++ bytes "     ", 2, false, [], []⟩ (by decide) (by decide)
      (by decide)).1⟩

/-- C8: the cursor is strictly increased by every loop step (the handler may
only add to it, and the loop adds 1), never decreases along any sequence of
steps, and after the pre-scan it is 2 when the silent-cluster check matched
and 0 when it did not. -/
theorem C8_cursor_monotone :
    (∀ p q : phoneticData, StepR p q → p.cur < q.cur) ∧
    (∀ p q : phoneticData, Reach p q → p.cur ≤ q.cur) ∧
    (∀ s : List Nat, ∀ p' : phoneticData, preScan (initState s) = some p' →
        (matchesAny (initState s) 0 silentClusters = some true → p'.cur = 2) ∧
        (matchesAny (initState s) 0 silentClusters = some false → p'.cur = 0)) := by
  refine ⟨stepR_lt, reach_le, ?_⟩
  intro s p' h
  unfold preScan at h
  rw [Option.bind_eq_some] at h
  obtain ⟨m, hm, h⟩ := h
  unfold preScanX at h
  rw [Option.bind_eq_some] at h
  obtain ⟨mx, hmx, h⟩ := h
  rw [Option.some_inj] at h
  subst h
  constructor
  · intro htrue
    rw [hm, Option.some_inj] at htrue
    subst htrue
    cases mx <;> rfl
  · intro hfalse
    rw [hm, Option.some_inj] at hfalse
    subst hfalse
    cases mx <;> rfl

theorem C8_witness :
    (initState [97]).cur < (⟨[97, 32, 32, 32, 32, 32], 1, false, [97], [97]⟩ :
      phoneticData).cur ∧
    (initState [97]).cur ≤ (⟨[97, 32, 32, 32, 32, 32], 1, false, [97], [97]⟩ :
      phoneticData).cur ∧
    (⟨bytes "kna" ++ bytes "     ", 2, false, [], []⟩ : phoneticData).cur = 2 := by
  have hstep : StepR (initState [97])
      ⟨[97, 32, 32, 32, 32, 32], 1, false, [97], [97]⟩ :=
    ⟨by decide, ⟨[97, 32, 32, 32, 32, 32], 0, false, [97], [97]⟩, by decide, rfl⟩
  exact ⟨C8_cursor_monotone.1 _ _ hstep,
    C8_cursor_monotone.2.1 _ _ (Relation.ReflTransGen.single hstep),
    (C8_cursor_monotone.2.2 (bytes "kna")
        ⟨bytes "kna" ++ bytes "     ", 2, false, [], []⟩ (by decide)).1 (by decide)⟩

/-- C9: the embedded transition relation of the scan loop is deterministic
(the next state is a function of the current one), and `Metaphone` is a pure
function of its input: equal inputs give equal output pairs, with no state
carried between calls. -/
theorem C9_deterministic :
    (∀ p q r : phoneticData, StepR p q → StepR p r → q = r) ∧
    (∀ s1 s2 : List Nat, s1 = s2 → Metaphone s1 = Metaphone s2) := by
  refine ⟨stepR_det, ?_⟩
  intro s1 s2 h
  rw [h]

theorem C9_witness :
    (⟨[98, 32, 32, 32, 32, 32], 1, false, [112], [112]⟩ : phoneticData) =
      ⟨[98, 32, 32, 32, 32, 32], 1, false, [112], [112]⟩ ∧
    Metaphone (bytes "smith") = Metaphone (bytes "smith") := by
  have hstep : StepR (initState [98])
      ⟨[98, 32, 32, 32, 32, 32], 1, false, [112], [112]⟩ :=
    ⟨by decide, ⟨[98, 32, 32, 32, 32, 32], 0, false, [112], [112]⟩, by decide, rfl⟩
  exact ⟨C9_deterministic.1 _ _ _ hstep hstep,
    C9_deterministic.2 (bytes "smith") (bytes "smith") rfl⟩

/-- C10: whenever `Metaphone` returns, the primary and secondary codes have
equal length and consist only of the bytes a, p, s, k, x — every emission
appends exactly one such byte to each accumulator. -/
theorem C10_parallel_codes (s pr sec : List Nat) (h : Metaphone s = some (pr, sec)) :
    pr.length = sec.length ∧ (∀ v ∈ pr, okByte v) ∧ (∀ v ∈ sec, okByte v) := by
  unfold Metaphone at h
  rw [Option.bind_eq_some] at h
  obtain ⟨p', hp', h⟩ := h
  rw [Option.bind_eq_some] at h
  obtain ⟨q, hq, h⟩ := h
  rw [Option.some_inj] at h
  injection h with h1 h2
  subst h1
  subst h2
  have he := extends_trans _ _ _ (preScan_extends _ _ hp') (scanLoop_extends _ _ _ hq)
  obtain ⟨_, _, d1, d2, hm1, hm2, hl, ha, hb⟩ := he
  have hm1' : q.metaphone1 = d1 := by rw [hm1]; rfl
  have hm2' : q.metaphone2 = d2 := by rw [hm2]; rfl
  rw [hm1', hm2']
  exact ⟨hl, ha, hb⟩

theorem C10_witness :
    ([112] : List Nat).length = ([112] : List Nat).length ∧
    (∀ v ∈ ([112] : List Nat), okByte v) ∧ (∀ v ∈ ([112] : List Nat), okByte v) :=
  C10_parallel_codes (bytes "bb") [112] [112] (by decide)

/-- The concrete scenarios of the specification, evaluated on the embedding
(byte 112 is p, 115 is s, 107 is k, 120 is x). -/
theorem spec_scenarios :
    Metaphone (bytes "bb") = some ([112], [112]) ∧
    Metaphone (bytes "chia") = some ([107], [107]) ∧
    Metaphone (bytes "caesar") = some ([115], [115]) ∧
    Metaphone (bytes "cat") = some ([], []) ∧
    Metaphone (bytes "xray") = some ([115], [115]) ∧
    Metaphone (bytes "") = some ([], []) ∧
    Metaphone (bytes "czerny") = some ([115], [120]) := by
  decide

end Megophone
